import Mathlib

/-!
Verification of the py-galactic in-memory context core.

The definitions below are a shallow embedding of the repository's code:

* `lookup`, `setKey`, `eraseKey` model Python `dict` access in insertion
  order (`galactic/context/mixins.py`: `AttributesHolder`,
  `IndividualsHolder`, `ValuesHolder` all store plain dicts);
* `VType` models a Python attribute type through the two-call value-type
  contract (zero-argument default, one-argument coercion that may raise,
  and the `isinstance` test used by `MemoryIndividual.__setitem__`);
* `Ctx` with `modelSet`, `modelDel`, `popSet`, `popDel`, `setValue`
  model `MemoryModel.__setitem__` / `__delitem__`,
  `MemoryPopulation.__setitem__` / `__delitem__` and
  `MemoryIndividual.__setitem__` from `galactic/context/memory/__init__.py`;
* the category definitions model the bit-vector algebra of
  `galactic/type/category.py` (`ImpreciseCategory`);
* the interval definitions model `galactic/type/number.py`
  (`ImpreciseNumber`).
-/

namespace Galactic

/-- Exceptions raised by the modelled code: Python `KeyError`,
`ValueError`/`ConversionError`, and `TypeError`. -/
inductive Err where
  | keyError : Err
  | valueError : Err
  | typeError : Err
deriving DecidableEq

/-! ### Association lists with Python-dict semantics -/

/-- Dict lookup: first binding of the key (`d[k]`, returning `none` for a
raised `KeyError`). -/
def lookup {β : Type} : List (String × β) → String → Option β
  | [], _ => none
  | (k, v) :: rest, key => if k = key then some v else lookup rest key

/-- Dict membership test (`k in d`). -/
def hasKey {β : Type} (l : List (String × β)) (key : String) : Bool :=
  (lookup l key).isSome

/-- Dict write (`d[k] = v`): update in place if the key is present,
append otherwise (Python 3 dicts preserve insertion order). -/
def setKey {β : Type} : List (String × β) → String → β → List (String × β)
  | [], key, val => [(key, val)]
  | (k, v) :: rest, key, val =>
    if k = key then (k, val) :: rest else (k, v) :: setKey rest key val

/-- Dict deletion (`del d[k]`): drop the first binding of the key. -/
def eraseKey {β : Type} : List (String × β) → String → List (String × β)
  | [], _ => []
  | (k, v) :: rest, key => if k = key then rest else (k, v) :: eraseKey rest key

/-- Keys of an association list, in insertion order. -/
def keysOf {β : Type} (l : List (String × β)) : List String :=
  l.map Prod.fst

theorem lookup_setKey_self {β : Type} (l : List (String × β)) (k : String) (v : β) :
    lookup (setKey l k v) k = some v := by
  induction l with
  | nil => simp [setKey, lookup]
  | cons e rest ih =>
    obtain ⟨k', v'⟩ := e
    by_cases h : k' = k
    · simp [setKey, h, lookup]
    · simp [setKey, h, lookup, ih]

theorem lookup_setKey_ne {β : Type} (l : List (String × β)) (k s : String) (v : β)
    (h : s ≠ k) : lookup (setKey l k v) s = lookup l s := by
  induction l with
  | nil =>
    have hks : ¬ k = s := fun hh => h hh.symm
    simp [setKey, lookup, hks]
  | cons e rest ih =>
    obtain ⟨k', v'⟩ := e
    by_cases hk : k' = k
    · have hks : ¬ k = s := fun hh => h hh.symm
      simp [setKey, hk, lookup, hks]
    · simp [setKey, hk, lookup, ih]

theorem lookup_eraseKey_ne {β : Type} (l : List (String × β)) (k s : String)
    (h : s ≠ k) : lookup (eraseKey l k) s = lookup l s := by
  induction l with
  | nil => simp [eraseKey]
  | cons e rest ih =>
    obtain ⟨k', v'⟩ := e
    by_cases hk : k' = k
    · have hks : ¬ k = s := fun hh => h hh.symm
      simp [eraseKey, hk, lookup, hks]
    · simp [eraseKey, hk, lookup, ih]

theorem hasKey_setKey {β : Type} (l : List (String × β)) (k s : String) (v : β) :
    hasKey (setKey l k v) s = true ↔ s = k ∨ hasKey l s = true := by
  by_cases h : s = k
  · subst h
    simp [hasKey, lookup_setKey_self]
  · simp [hasKey, lookup_setKey_ne l k s v h, h]

theorem mem_keysOf_iff {β : Type} (l : List (String × β)) (s : String) :
    s ∈ keysOf l ↔ hasKey l s = true := by
  induction l with
  | nil => simp [keysOf, hasKey, lookup]
  | cons e rest ih =>
    obtain ⟨k, v⟩ := e
    by_cases h : k = s
    · simp [keysOf, hasKey, lookup, h]
    · simpa [keysOf, hasKey, lookup, h, Ne.symm h] using ih

theorem nodup_keysOf_setKey {β : Type} (l : List (String × β)) (k : String) (v : β)
    (h : (keysOf l).Nodup) : (keysOf (setKey l k v)).Nodup := by
  induction l with
  | nil => simp [setKey, keysOf]
  | cons e rest ih =>
    obtain ⟨k', v'⟩ := e
    simp only [keysOf, List.map_cons, List.nodup_cons] at h
    by_cases hk : k' = k
    · simpa [setKey, hk, keysOf, List.nodup_cons] using h
    · have hrest := ih h.2
      simp only [setKey, hk, if_false, keysOf, List.map_cons, List.nodup_cons]
      refine ⟨?_, hrest⟩
      intro hmem
      have := (mem_keysOf_iff (setKey rest k v) k').1 hmem
      rcases (hasKey_setKey rest k k' v).1 this with h1 | h1
      · exact hk h1
      · exact h.1 ((mem_keysOf_iff rest k').2 h1)

theorem keysOf_eraseKey_sublist {β : Type} (l : List (String × β)) (k : String) :
    (keysOf (eraseKey l k)).Sublist (keysOf l) := by
  induction l with
  | nil => simp [eraseKey]
  | cons e rest ih =>
    obtain ⟨k', v'⟩ := e
    by_cases hk : k' = k
    · simp only [eraseKey, hk, if_true, keysOf, List.map_cons]
      exact (List.sublist_cons_self _ _)
    · simp only [eraseKey, hk, if_false, keysOf, List.map_cons]
      exact List.Sublist.cons₂ _ ih

theorem nodup_keysOf_eraseKey {β : Type} (l : List (String × β)) (k : String)
    (h : (keysOf l).Nodup) : (keysOf (eraseKey l k)).Nodup :=
  (keysOf_eraseKey_sublist l k).nodup h

theorem hasKey_eraseKey_self {β : Type} (l : List (String × β)) (k : String)
    (h : (keysOf l).Nodup) : hasKey (eraseKey l k) k = false := by
  induction l with
  | nil => simp [eraseKey, hasKey, lookup]
  | cons e rest ih =>
    obtain ⟨k', v'⟩ := e
    simp only [keysOf, List.map_cons, List.nodup_cons] at h
    by_cases hk : k' = k
    · subst hk
      simp only [eraseKey, if_true]
      by_cases hmem : hasKey rest k' = true
      · exact absurd ((mem_keysOf_iff rest k').2 hmem) h.1
      · simpa using hmem
    · simpa [eraseKey, hk, hasKey, lookup] using ih h.2

theorem hasKey_eraseKey_ne {β : Type} (l : List (String × β)) (k s : String)
    (h : s ≠ k) : hasKey (eraseKey l k) s = hasKey l s := by
  simp [hasKey, lookup_eraseKey_ne l k s h]

theorem lookup_mem {β : Type} (l : List (String × β)) (k : String) (v : β)
    (h : lookup l k = some v) : (k, v) ∈ l := by
  induction l with
  | nil => simp [lookup] at h
  | cons e rest ih =>
    obtain ⟨k', v'⟩ := e
    by_cases hk : k' = k
    · subst hk
      simp only [lookup, if_true] at h
      simp [Option.some.inj h]
    · simp only [lookup, hk, if_false] at h
      exact List.mem_cons_of_mem _ (ih h)

theorem mem_setKey {β : Type} (l : List (String × β)) (k : String) (v : β)
    (e : String × β) (h : e ∈ setKey l k v) : e ∈ l ∨ e = (k, v) := by
  induction l with
  | nil =>
    simp only [setKey, List.mem_singleton] at h
    exact Or.inr h
  | cons e' rest ih =>
    obtain ⟨k', v'⟩ := e'
    by_cases hk : k' = k
    · subst hk
      simp only [setKey, if_true, List.mem_cons] at h
      rcases h with h | h
      · exact Or.inr (by simp [h])
      · exact Or.inl (List.mem_cons_of_mem _ h)
    · simp only [setKey, hk, if_false, List.mem_cons] at h
      rcases h with h | h
      · exact Or.inl (by simp [h])
      · rcases ih h with h1 | h1
        · exact Or.inl (List.mem_cons_of_mem _ h1)
        · exact Or.inr h1

theorem mem_eraseKey {β : Type} (l : List (String × β)) (k : String)
    (e : String × β) (h : e ∈ eraseKey l k) : e ∈ l := by
  induction l with
  | nil => simp [eraseKey] at h
  | cons e' rest ih =>
    obtain ⟨k', v'⟩ := e'
    by_cases hk : k' = k
    · subst hk
      simp only [eraseKey, if_true] at h
      exact List.mem_cons_of_mem _ h
    · simp only [eraseKey, hk, if_false, List.mem_cons] at h
      rcases h with h | h
      · exact List.mem_cons.2 (Or.inl h)
      · exact List.mem_cons_of_mem _ (ih h)

/-! ### The value-type contract

A `VType` is the shallow embedding of a Python class used as an attribute
type.  `id` stands for the identity of the class object (the code compares
types with `self[name].type != cls`); `default` is zero-argument
construction `cls()`; `conv` is one-argument construction `cls(value)`
returning `none` when the constructor raises `ValueError`/`TypeError`;
`isInst` is the `isinstance(value, cls)` test. -/

structure VType (V : Type) where
  id : Nat
  default : V
  conv : V → Option V
  isInst : V → Bool

/-- Contract-satisfying value type: `cls()` returns a value of the class,
and a successful `cls(value)` returns a value of the class — which Python
guarantees for ordinary classes. -/
def VType.WF {V : Type} (t : VType V) : Prop :=
  t.isInst t.default = true ∧ ∀ v w, t.conv v = some w → t.isInst w = true

/-- An in-memory context: its model (name-to-attribute-type dict, in
insertion order) and its population (identifier-to-values dict, each
individual a name-to-value dict).  Models `MemoryContext`. -/
structure Ctx (V : Type) where
  model : List (String × VType V)
  population : List (String × List (String × V))

/-- The empty context (`MemoryContext()`). -/
def Ctx.empty (V : Type) : Ctx V := ⟨[], []⟩

/-- The body of `MemoryIndividual.__setitem__(name, value)`:
`attribute = self.model[name]` (raising `KeyError` if absent);
`if not isinstance(value, attribute.type): value = attribute.type(value)`
(propagating the conversion error); then store the value. -/
def setValue {V : Type} (model : List (String × VType V)) (vals : List (String × V))
    (name : String) (v : V) : Except Err (List (String × V)) :=
  match lookup model name with
  | none => .error .keyError
  | some attr =>
    if attr.isInst v then .ok (setKey vals name v)
    else
      match attr.conv v with
      | some w => .ok (setKey vals name w)
      | none => .error .valueError

/-- The loop of `MemoryPopulation.__setitem__`: apply the partial-values
entries in iteration order; each entry first checks
`if name not in self.model: raise KeyError`, then runs
`individual[name] = value`.  The first component is the individual's value
dict as left behind (entries before a failure stay applied); the second is
the raised exception, if any. -/
def applyValues {V : Type} (model : List (String × VType V)) :
    List (String × V) → List (String × V) → List (String × V) × Option Err
  | vals, [] => (vals, none)
  | vals, (name, v) :: rest =>
    if hasKey model name then
      match setValue model vals name v with
      | .error e => (vals, some e)
      | .ok vals' => applyValues model vals' rest
    else (vals, some .keyError)

/-- The value dict built by `MemoryIndividual.__init__`: every current
model attribute mapped to its default `attribute.type()`. -/
def defaultVals {V : Type} (model : List (String × VType V)) : List (String × V) :=
  model.map (fun e => (e.1, e.2.default))

/-- `MemoryPopulation.__setitem__(identifier, values)`
(`Population.setIndividual`): fetch the individual, creating and
*inserting* a fresh all-defaults individual first when the identifier is
new; then apply the entries one by one.  Returns the context as left
behind together with the raised exception, if any. -/
def popSet {V : Type} (c : Ctx V) (ident : String) (values : List (String × V)) :
    Ctx V × Option Err :=
  match lookup c.population ident with
  | some vals =>
    let r := applyValues c.model vals values
    ({ c with population := setKey c.population ident r.1 }, r.2)
  | none =>
    let vals0 := defaultVals c.model
    let pop0 := setKey c.population ident vals0
    let r := applyValues c.model vals0 values
    ({ c with population := setKey pop0 ident r.1 }, r.2)

/-- `MemoryPopulation.__delitem__(identifier)`
(`Population.deleteIndividual`). -/
def popDel {V : Type} (c : Ctx V) (ident : String) : Ctx V × Option Err :=
  match lookup c.population ident with
  | none => (c, some .keyError)
  | some _ => ({ c with population := eraseKey c.population ident }, none)

/-- One step of the population loop of a model mutation
(`for identifier in self.population: ...`): apply `f` to each individual's
value dict in order, stopping at the first raised exception and leaving
later individuals untouched. -/
def cascade {V : Type} (f : List (String × V) → Except Err (List (String × V))) :
    List (String × List (String × V)) → List (String × List (String × V)) × Option Err
  | [] => ([], none)
  | e :: rest =>
    match f e.2 with
    | .error err => (e :: rest, some err)
    | .ok vals' =>
      let r := cascade f rest
      ((e.1, vals') :: r.1, r.2)

/-- The retype loop body of `MemoryModel.__setitem__`: read the old value
(`KeyError` would propagate), run
`self.population[identifier][name] = cls(old)` inside
`try ... except (ValueError, TypeError):` and on a caught error fall back
to `self.population[identifier][name] = cls()` (whose own errors
propagate).  `model2` is the model after the attribute was replaced. -/
def retypeOne {V : Type} (model2 : List (String × VType V)) (name : String) (cls : VType V)
    (vals : List (String × V)) : Except Err (List (String × V)) :=
  match lookup vals name with
  | none => .error .keyError
  | some old =>
    match (match cls.conv old with
           | none => Except.error Err.valueError
           | some w => setValue model2 vals name w) with
    | .ok vals' => .ok vals'
    | .error Err.keyError => .error .keyError
    | .error Err.valueError => setValue model2 vals name cls.default
    | .error Err.typeError => setValue model2 vals name cls.default

/-- `MemoryModel.__setitem__(name, cls)` (`Model.addOrReplaceAttribute`):
same type, do nothing; different type, replace the attribute and run the
retype cascade; new name, add the attribute and give every individual the
default value through `individual.__setitem__`. -/
def modelSet {V : Type} (c : Ctx V) (name : String) (cls : VType V) : Ctx V × Option Err :=
  match lookup c.model name with
  | some attr =>
    if attr.id = cls.id then (c, none)
    else
      let model2 := setKey c.model name cls
      let r := cascade (retypeOne model2 name cls) c.population
      ({ model := model2, population := r.1 }, r.2)
  | none =>
    let model2 := setKey c.model name cls
    let r := cascade (fun vals => setValue model2 vals name cls.default) c.population
    ({ model := model2, population := r.1 }, r.2)

/-- `MemoryModel.__delitem__(name)` (`Model.removeAttribute`): remove the
attribute (raising `KeyError` if absent), then delete the corresponding
value from every individual through `MemoryIndividual.__delitem__`, whose
guard `if name in self.model: raise ValueError` is re-evaluated against
the already-shrunk model. -/
def modelDel {V : Type} (c : Ctx V) (name : String) : Ctx V × Option Err :=
  match lookup c.model name with
  | none => (c, some .keyError)
  | some _ =>
    let model2 := eraseKey c.model name
    let r := cascade
      (fun vals => if hasKey model2 name then .error .valueError else .ok (eraseKey vals name))
      c.population
    ({ model := model2, population := r.1 }, r.2)

/-- One public mutation of a context. -/
inductive Mut (V : Type) where
  | modelSet (name : String) (cls : VType V) : Mut V
  | modelDel (name : String) : Mut V
  | popSet (ident : String) (values : List (String × V)) : Mut V
  | popDel (ident : String) : Mut V

/-- Run one mutation, keeping the post-state whether or not an exception
was raised (the caller of the library catches it; the context object
survives). -/
def step {V : Type} (c : Ctx V) : Mut V → Ctx V × Option Err
  | .modelSet name cls => modelSet c name cls
  | .modelDel name => modelDel c name
  | .popSet ident values => popSet c ident values
  | .popDel ident => popDel c ident

/-- Run a sequence of mutations. -/
def runMuts {V : Type} (c : Ctx V) : List (Mut V) → Ctx V
  | [] => c
  | m :: rest => runMuts (step c m).1 rest

/-- A mutation only involves contract-satisfying value types. -/
def MutWF {V : Type} : Mut V → Prop
  | .modelSet _ cls => cls.WF
  | _ => True

/-! ### Invariant I1 -/

/-- A value dict is well-formed against a model: no duplicate names, and
its name set is exactly the model's attribute-name set. -/
def goodVals {V : Type} (model : List (String × VType V)) (vals : List (String × V)) : Prop :=
  (keysOf vals).Nodup ∧ ∀ s, hasKey vals s = hasKey model s

/-- State invariant: the model has no duplicate attribute names and every
individual in the population satisfies invariant I1. -/
def StInv {V : Type} (c : Ctx V) : Prop :=
  (keysOf c.model).Nodup ∧ ∀ e ∈ c.population, goodVals c.model e.2

theorem setValue_ok_shape {V : Type} (model : List (String × VType V))
    (vals : List (String × V)) (name : String) (v : V) (vals' : List (String × V))
    (h : setValue model vals name v = .ok vals') :
    (∃ w, vals' = setKey vals name w) ∧ hasKey model name = true := by
  cases hm : lookup model name with
  | none => simp [setValue, hm] at h
  | some attr =>
    have hk : hasKey model name = true := by simp [hasKey, hm]
    by_cases hi : attr.isInst v = true
    · simp only [setValue, hm, hi, if_true] at h
      exact ⟨⟨v, (Except.ok.inj h).symm⟩, hk⟩
    · cases hc : attr.conv v with
      | none => simp [setValue, hm, hi, hc] at h
      | some w =>
        simp only [setValue, hm, hi, if_false, hc] at h
        exact ⟨⟨w, (Except.ok.inj h).symm⟩, hk⟩

theorem goodVals_setKey {V : Type} (model : List (String × VType V))
    (vals : List (String × V)) (name : String) (w : V)
    (hg : goodVals model vals) (hm : hasKey model name = true) :
    goodVals model (setKey vals name w) := by
  refine ⟨nodup_keysOf_setKey vals name w hg.1, fun s => ?_⟩
  by_cases hs : s = name
  · subst hs
    rw [hm]
    simp [hasKey, lookup_setKey_self]
  · simp only [hasKey]
    rw [lookup_setKey_ne vals name s w hs]
    exact hg.2 s

theorem applyValues_good {V : Type} (model : List (String × VType V))
    (values : List (String × V)) (vals : List (String × V))
    (hg : goodVals model vals) : goodVals model (applyValues model vals values).1 := by
  induction values generalizing vals with
  | nil => simpa [applyValues] using hg
  | cons e rest ih =>
    obtain ⟨name, v⟩ := e
    by_cases hk : hasKey model name = true
    · simp only [applyValues, hk, if_true]
      cases hs : setValue model vals name v with
      | error err => simpa using hg
      | ok vals' =>
        obtain ⟨⟨w, hw⟩, hkm⟩ := setValue_ok_shape model vals name v vals' hs
        exact ih vals' (hw ▸ goodVals_setKey model vals name w hg hkm)
    · simp only [applyValues, hk, if_false]
      simpa using hg

theorem lookup_defaultVals {V : Type} (model : List (String × VType V)) (s : String) :
    lookup (defaultVals model) s = (lookup model s).map VType.default := by
  induction model with
  | nil => simp [defaultVals, lookup]
  | cons e rest ih =>
    obtain ⟨k, t⟩ := e
    by_cases hk : k = s
    · simp [defaultVals, lookup, hk]
    · simpa [defaultVals, lookup, hk] using ih

theorem keysOf_defaultVals {V : Type} (model : List (String × VType V)) :
    keysOf (defaultVals model) = keysOf model := by
  simp [keysOf, defaultVals, List.map_map]

theorem goodVals_defaultVals {V : Type} (model : List (String × VType V))
    (h : (keysOf model).Nodup) : goodVals model (defaultVals model) := by
  refine ⟨by rwa [keysOf_defaultVals], fun s => ?_⟩
  simp [hasKey, lookup_defaultVals]

theorem hasKey_setKey_of_hasKey {V : Type} (model : List (String × VType V))
    (name : String) (cls : VType V) (hm : hasKey model name = true) (s : String) :
    hasKey (setKey model name cls) s = hasKey model s := by
  by_cases hs : s = name
  · subst hs
    rw [hm]
    simp [hasKey, lookup_setKey_self]
  · simp only [hasKey]
    rw [lookup_setKey_ne model name s cls hs]

theorem retypeOne_ok_shape {V : Type} (model2 : List (String × VType V))
    (name : String) (cls : VType V) (vals vals' : List (String × V))
    (h : retypeOne model2 name cls vals = .ok vals') :
    (∃ w, vals' = setKey vals name w) ∧ hasKey model2 name = true := by
  unfold retypeOne at h
  split at h
  · exact absurd h (by simp)
  · split at h
    · rename_i vals2 heq
      split at heq
      · exact absurd heq (by simp)
      · rename_i w hw
        rw [Except.ok.inj h] at heq
        exact setValue_ok_shape model2 vals name w vals' heq
    · exact absurd h (by simp)
    · exact setValue_ok_shape model2 vals name cls.default vals' h
    · exact setValue_ok_shape model2 vals name cls.default vals' h

theorem cascade_eq_map_of_ok {V : Type}
    (f : List (String × V) → Except Err (List (String × V)))
    (g : List (String × V) → List (String × V))
    (pop : List (String × List (String × V)))
    (h : ∀ e ∈ pop, f e.2 = .ok (g e.2)) :
    cascade f pop = (pop.map (fun e => (e.1, g e.2)), none) := by
  induction pop with
  | nil => simp [cascade]
  | cons e rest ih =>
    have he := h e (List.mem_cons_self e rest)
    simp only [cascade, he]
    rw [ih (fun e' he' => h e' (List.mem_cons_of_mem e he'))]
    simp

theorem cascade_mem {V : Type}
    (f : List (String × V) → Except Err (List (String × V)))
    (pop : List (String × List (String × V)))
    (P : List (String × V) → Prop)
    (hpop : ∀ e ∈ pop, P e.2)
    (hok : ∀ vals vals', P vals → f vals = .ok vals' → P vals') :
    ∀ e ∈ (cascade f pop).1, P e.2 := by
  induction pop with
  | nil => simp [cascade]
  | cons e rest ih =>
    intro e' he'
    cases hf : f e.2 with
    | error err =>
      simp only [cascade, hf] at he'
      exact hpop e' he'
    | ok vals' =>
      simp only [cascade, hf, List.mem_cons] at he'
      rcases he' with he' | he'
      · rw [he']
        exact hok e.2 vals' (hpop e (List.mem_cons_self e rest)) hf
      · exact ih (fun x hx => hpop x (List.mem_cons_of_mem e hx)) e' he'

theorem step_inv {V : Type} (c : Ctx V) (m : Mut V)
    (hc : StInv c) (hm : MutWF m) : StInv (step c m).1 := by
  obtain ⟨hnd, hpop⟩ := hc
  cases m with
  | popDel ident =>
    simp only [step, popDel]
    cases hl : lookup c.population ident with
    | none => exact ⟨hnd, hpop⟩
    | some vals =>
      exact ⟨hnd, fun e he => hpop e (mem_eraseKey c.population ident e he)⟩
  | popSet ident values =>
    simp only [step, popSet]
    cases hl : lookup c.population ident with
    | some vals =>
      refine ⟨hnd, fun e he => ?_⟩
      rcases mem_setKey _ _ _ e he with h1 | h1
      · exact hpop e h1
      · rw [h1]
        exact applyValues_good c.model values vals
          (hpop (ident, vals) (lookup_mem c.population ident vals hl))
    | none =>
      refine ⟨hnd, fun e he => ?_⟩
      rcases mem_setKey _ _ _ e he with h1 | h1
      · rcases mem_setKey _ _ _ e h1 with h2 | h2
        · exact hpop e h2
        · rw [h2]
          exact goodVals_defaultVals c.model hnd
      · rw [h1]
        exact applyValues_good c.model values (defaultVals c.model)
          (goodVals_defaultVals c.model hnd)
  | modelDel name =>
    simp only [step, modelDel]
    cases hl : lookup c.model name with
    | none => exact ⟨hnd, hpop⟩
    | some attr =>
      have hgone : hasKey (eraseKey c.model name) name = false :=
        hasKey_eraseKey_self c.model name hnd
      have hcas := cascade_eq_map_of_ok
        (fun vals => if hasKey (eraseKey c.model name) name then .error .valueError
                     else .ok (eraseKey vals name))
        (fun vals => eraseKey vals name) c.population
        (fun e _ => by simp [hgone])
      refine ⟨nodup_keysOf_eraseKey c.model name hnd, ?_⟩
      rw [hcas]
      intro e he
      simp only [List.mem_map] at he
      obtain ⟨e0, he0, rfl⟩ := he
      have hg := hpop e0 he0
      refine ⟨nodup_keysOf_eraseKey e0.2 name hg.1, fun s => ?_⟩
      by_cases hs : s = name
      · subst hs
        rw [hasKey_eraseKey_self e0.2 s hg.1, hgone]
      · rw [hasKey_eraseKey_ne e0.2 name s hs, hasKey_eraseKey_ne c.model name s hs]
        exact hg.2 s
  | modelSet name cls =>
    simp only [step, modelSet]
    cases hl : lookup c.model name with
    | some attr =>
      by_cases hid : attr.id = cls.id
      · simp only [hid, if_true]
        exact ⟨hnd, hpop⟩
      · simp only [hid, if_false]
        have hkm : hasKey c.model name = true := by simp [hasKey, hl]
        have hkeys : ∀ s, hasKey (setKey c.model name cls) s = hasKey c.model s :=
          hasKey_setKey_of_hasKey c.model name cls hkm
        refine ⟨nodup_keysOf_setKey c.model name cls hnd, ?_⟩
        intro e he
        have hgood : ∀ e0 ∈ c.population, goodVals (setKey c.model name cls) e0.2 := by
          intro e0 he0
          obtain ⟨h1, h2⟩ := hpop e0 he0
          exact ⟨h1, fun s => (h2 s).trans (hkeys s).symm⟩
        refine cascade_mem _ c.population (goodVals (setKey c.model name cls)) hgood
          ?_ e he
        intro vals vals' hg hok
        obtain ⟨⟨w, hw⟩, hk2⟩ :=
          retypeOne_ok_shape (setKey c.model name cls) name cls vals vals' hok
        rw [hw]
        exact goodVals_setKey _ vals name w hg hk2
    | none =>
      have hwf : cls.WF := hm
      have hself : lookup (setKey c.model name cls) name = some cls :=
        lookup_setKey_self c.model name cls
      have hcas := cascade_eq_map_of_ok
        (fun vals => setValue (setKey c.model name cls) vals name cls.default)
        (fun vals => setKey vals name cls.default) c.population
        (fun e _ => by simp [setValue, hself, hwf.1])
      refine ⟨nodup_keysOf_setKey c.model name cls hnd, ?_⟩
      rw [hcas]
      intro e he
      simp only [List.mem_map] at he
      obtain ⟨e0, he0, rfl⟩ := he
      have hg := hpop e0 he0
      refine ⟨nodup_keysOf_setKey e0.2 name cls.default hg.1, fun s => ?_⟩
      by_cases hs : s = name
      · subst hs
        simp [hasKey, lookup_setKey_self]
      · rw [hasKey, lookup_setKey_ne e0.2 name s cls.default hs,
          hasKey, lookup_setKey_ne c.model name s cls hs]
        exact hg.2 s

theorem runMuts_inv {V : Type} (muts : List (Mut V)) (c : Ctx V)
    (hc : StInv c) (hm : ∀ m ∈ muts, MutWF m) : StInv (runMuts c muts) := by
  induction muts generalizing c with
  | nil => simpa [runMuts] using hc
  | cons m rest ih =>
    exact ih (step c m).1 (step_inv c m hc (hm m (List.mem_cons_self m rest)))
      (fun m' hm' => hm m' (List.mem_cons_of_mem m hm'))

/-! ### Support for the atomicity analysis of `popSet` -/

/-- The value dict `MemoryPopulation.__setitem__` starts from: the
existing individual's values, or a fresh all-defaults dict for a new
identifier. -/
def initVals {V : Type} (c : Ctx V) (ident : String) : List (String × V) :=
  match lookup c.population ident with
  | some vals => vals
  | none => defaultVals c.model

theorem applyValues_error_split {V : Type} (model : List (String × VType V)) :
    ∀ (values : List (String × V)) (vals : List (String × V)) (e : Err),
    (applyValues model vals values).2 = some e →
    ∃ p q rest, values = p ++ q :: rest ∧
      (applyValues model vals p).2 = none ∧
      (applyValues model vals p).1 = (applyValues model vals values).1 ∧
      ((hasKey model q.1 = false ∧ e = .keyError) ∨
        setValue model (applyValues model vals values).1 q.1 q.2 = .error e) := by
  intro values
  induction values with
  | nil =>
    intro vals e h
    simp [applyValues] at h
  | cons q0 rest0 ih =>
    intro vals e h
    obtain ⟨name, v⟩ := q0
    by_cases hk : hasKey model name = true
    · cases hs : setValue model vals name v with
      | error err =>
        have hred : applyValues model vals ((name, v) :: rest0) = (vals, some err) := by
          simp [applyValues, hk, hs]
        rw [hred] at h
        simp only [Option.some.injEq] at h
        refine ⟨[], (name, v), rest0, rfl, by simp [applyValues], by
          rw [hred]; simp [applyValues], Or.inr ?_⟩
        rw [hred]
        simpa [h] using hs
      | ok vals' =>
        have hred : applyValues model vals ((name, v) :: rest0) =
            applyValues model vals' rest0 := by
          simp [applyValues, hk, hs]
        rw [hred] at h
        obtain ⟨p, q, rest, hsplit, h1, h2, h3⟩ := ih vals' e h
        refine ⟨(name, v) :: p, q, rest, by simp [hsplit], ?_, ?_, ?_⟩
        · simpa [applyValues, hk, hs] using h1
        · rw [hred]
          simpa [applyValues, hk, hs] using h2
        · rw [hred]
          exact h3
    · have hred : applyValues model vals ((name, v) :: rest0) = (vals, some .keyError) := by
        simp [applyValues, hk]
      rw [hred] at h
      simp only [Option.some.injEq] at h
      refine ⟨[], (name, v), rest0, rfl, by simp [applyValues], by
        rw [hred]; simp [applyValues], Or.inl ⟨by simpa using hk, h.symm⟩⟩

/-! ### Concrete instances used by witnesses and counterexamples -/

/-- A value type that accepts everything (like Python `int` over already
integral values): identity coercion, universal instance test. -/
def natType : VType Nat :=
  { id := 0, default := 0, conv := fun v => some v, isInst := fun _ => true }

theorem natType_WF : natType.WF :=
  ⟨rfl, fun _ _ h => by cases h; rfl⟩

/-- A value type whose coercion fails on odd numbers — a type into which
some values are inconvertible. -/
def evenType : VType Nat :=
  { id := 1, default := 0,
    conv := fun v => if v % 2 = 0 then some v else none,
    isInst := fun v => decide (v % 2 = 0) }

theorem evenType_WF : evenType.WF := by
  refine ⟨rfl, fun v w h => ?_⟩
  simp only [evenType] at h ⊢
  by_cases hv : v % 2 = 0
  · rw [if_pos hv] at h
    cases h
    simpa using hv
  · rw [if_neg hv] at h
    cases h

/-- A context with one `natType` attribute `a` and one individual `x`
with `a = 0`. -/
def cex1 : Ctx Nat :=
  { model := [("a", natType)], population := [("x", [("a", 0)])] }

/-- A context for the retype scenario: attribute `a` of `natType`,
individual `x` with `a = 4` (convertible to `evenType`) and individual
`y` with `a = 3` (not convertible). -/
def cex2 : Ctx Nat :=
  { model := [("a", natType)],
    population := [("x", [("a", 4)]), ("y", [("a", 3)])] }

/-! ### Claims about the consistency engine -/

/-- C1, counterexample: `Population.setIndividual` is not atomic.  On
`cex1`, setting individual `x` with the mapping `{a: 5, b: 7}` raises
`KeyError` (`b` is not a model attribute) yet leaves `a` changed from `0`
to `5`; and setting a fresh identifier `y` with the failing mapping
`{b: 7}` raises but leaves a new individual `y` in the population. -/
theorem claim_C1_counterexample :
    (popSet cex1 "x" [("a", 5), ("b", 7)]).2 = some .keyError ∧
    lookup (popSet cex1 "x" [("a", 5), ("b", 7)]).1.population "x" = some [("a", 5)] ∧
    (popSet cex1 "y" [("b", 7)]).2 = some .keyError ∧
    hasKey (popSet cex1 "y" [("b", 7)]).1.population "y" = true := by
  refine ⟨?_, ?_, ?_, ?_⟩ <;> decide

/-- C1, amended: when `Population.setIndividual` fails, the model is left
unchanged and the individual remains in the population (it is inserted
before the entries are applied when the identifier is new), holding the
values obtained by applying the longest error-free prefix of
`partialValues` to its initial values; the first failing entry (unknown
attribute name, or a value the attribute type cannot convert) aborts the
rest. -/
theorem claim_C1_amended {V : Type} (c : Ctx V) (ident : String)
    (values : List (String × V)) (e : Err)
    (h : (popSet c ident values).2 = some e) :
    (popSet c ident values).1.model = c.model ∧
    lookup (popSet c ident values).1.population ident =
      some (applyValues c.model (initVals c ident) values).1 ∧
    ∃ p q rest, values = p ++ q :: rest ∧
      (applyValues c.model (initVals c ident) p).2 = none ∧
      (applyValues c.model (initVals c ident) p).1 =
        (applyValues c.model (initVals c ident) values).1 ∧
      ((hasKey c.model q.1 = false ∧ e = .keyError) ∨
        setValue c.model (applyValues c.model (initVals c ident) values).1 q.1 q.2 =
          .error e) := by
  cases hl : lookup c.population ident with
  | some vals =>
    have hv : initVals c ident = vals := by simp [initVals, hl]
    have herr : (applyValues c.model vals values).2 = some e := by
      simpa [popSet, hl] using h
    refine ⟨by simp [popSet, hl], ?_, ?_⟩
    · simp [popSet, hl, hv, lookup_setKey_self]
    · rw [hv]
      exact applyValues_error_split c.model values vals e herr
  | none =>
    have hv : initVals c ident = defaultVals c.model := by simp [initVals, hl]
    have herr : (applyValues c.model (defaultVals c.model) values).2 = some e := by
      simpa [popSet, hl] using h
    refine ⟨by simp [popSet, hl], ?_, ?_⟩
    · simp [popSet, hl, hv, lookup_setKey_self]
    · rw [hv]
      exact applyValues_error_split c.model values (defaultVals c.model) e herr

/-- C1, witness for the amended claim at the concrete failing call of the
counterexample. -/
theorem claim_C1_amended_witness :
    (popSet cex1 "x" [("a", 5), ("b", 7)]).1.model = cex1.model ∧
    lookup (popSet cex1 "x" [("a", 5), ("b", 7)]).1.population "x" =
      some (applyValues cex1.model (initVals cex1 "x") [("a", 5), ("b", 7)]).1 ∧
    ∃ p q rest, [(("a" : String), (5 : Nat)), ("b", 7)] = p ++ q :: rest ∧
      (applyValues cex1.model (initVals cex1 "x") p).2 = none ∧
      (applyValues cex1.model (initVals cex1 "x") p).1 =
        (applyValues cex1.model (initVals cex1 "x") [("a", 5), ("b", 7)]).1 ∧
      ((hasKey cex1.model q.1 = false ∧ Err.keyError = .keyError) ∨
        setValue cex1.model
          (applyValues cex1.model (initVals cex1 "x") [("a", 5), ("b", 7)]).1 q.1 q.2 =
          .error .keyError) :=
  claim_C1_amended cex1 "x" [("a", 5), ("b", 7)] .keyError (by decide)

/-- C2 (invariant I1): starting from an empty context, after any sequence
of public mutations — add attribute, retype attribute, remove attribute,
set individual, delete individual, each involving only contract-satisfying
value types — every individual's set of value names is exactly the model's
set of attribute names. -/
theorem claim_C2 {V : Type} (muts : List (Mut V)) (h : ∀ m ∈ muts, MutWF m)
    (ident : String) (vals : List (String × V))
    (hlook : lookup (runMuts (Ctx.empty V) muts).population ident = some vals)
    (s : String) :
    hasKey vals s = hasKey (runMuts (Ctx.empty V) muts).model s := by
  have hinv : StInv (runMuts (Ctx.empty V) muts) := by
    refine runMuts_inv muts (Ctx.empty V) ⟨?_, ?_⟩ h
    · simp [Ctx.empty, keysOf]
    · intro e he
      simp [Ctx.empty] at he
  exact (hinv.2 (ident, vals) (lookup_mem _ ident vals hlook)).2 s

/-- C2, witness: a concrete mutation sequence — add `a`, create `x` with
`a = 5`, remove `a`, add `b` — after which individual `x` has exactly the
name `b`, as the model does. -/
theorem claim_C2_witness :
    hasKey [(("b" : String), (0 : Nat))] "b" =
      hasKey (runMuts (Ctx.empty Nat)
        [.modelSet "a" natType, .popSet "x" [("a", 5)],
         .modelDel "a", .modelSet "b" natType]).model "b" := by
  refine claim_C2
    [.modelSet "a" natType, .popSet "x" [("a", 5)], .modelDel "a", .modelSet "b" natType]
    ?_ "x" [("b", 0)] (by decide) "b"
  intro m hm
  simp only [List.mem_cons, List.not_mem_nil, or_false] at hm
  rcases hm with rfl | rfl | rfl | rfl
  · exact natType_WF
  · trivial
  · trivial
  · exact natType_WF

theorem retypeOne_total {V : Type} (model2 : List (String × VType V))
    (name : String) (cls : VType V) (vals : List (String × V)) (old : V)
    (hself : lookup model2 name = some cls) (hwf : cls.WF)
    (hv : lookup vals name = some old) :
    retypeOne model2 name cls vals =
      .ok (setKey vals name (match cls.conv old with
        | some w => w
        | none => cls.default)) := by
  simp only [retypeOne, hv]
  cases hcv : cls.conv old with
  | some w => simp [setValue, hself, hwf.2 old w hcv]
  | none => simp [setValue, hself, hwf.1]

/-- C3 (retype cascade with fallback): replacing an attribute's type by a
different contract-satisfying type raises nothing; the attribute is
replaced, and every individual's value under that name becomes the
coercion of its old value when the coercion succeeds and the new type's
default when it fails. -/
theorem claim_C3 {V : Type} (c : Ctx V) (name : String) (tOld cls : VType V)
    (hm : lookup c.model name = some tOld) (hne : ¬ tOld.id = cls.id) (hwf : cls.WF)
    (hvals : ∀ e ∈ c.population, hasKey e.2 name = true) :
    (modelSet c name cls).2 = none ∧
    lookup (modelSet c name cls).1.model name = some cls ∧
    (modelSet c name cls).1.population = c.population.map (fun e => (e.1,
      setKey e.2 name (match lookup e.2 name with
        | some old => (match cls.conv old with
          | some w => w
          | none => cls.default)
        | none => cls.default))) := by
  have hself : lookup (setKey c.model name cls) name = some cls :=
    lookup_setKey_self c.model name cls
  have hcas := cascade_eq_map_of_ok (retypeOne (setKey c.model name cls) name cls)
    (fun vals => setKey vals name (match lookup vals name with
      | some old => (match cls.conv old with
        | some w => w
        | none => cls.default)
      | none => cls.default))
    c.population ?_
  · refine ⟨?_, ?_, ?_⟩
    · simp [modelSet, hm, hne, hcas]
    · simp [modelSet, hm, hne, hself]
    · simp [modelSet, hm, hne, hcas]
  · intro e he
    have hk := hvals e he
    cases hv : lookup e.2 name with
    | none => simp [hasKey, hv] at hk
    | some old =>
      rw [retypeOne_total (setKey c.model name cls) name cls e.2 old hself hwf hv]
      simp [hv]

/-- C3, witness: retyping `a` from `natType` to `evenType` on `cex2`
raises nothing; `x`'s value `4` is kept by the coercion and `y`'s
inconvertible value `3` falls back to the default `0`. -/
theorem claim_C3_witness :
    (modelSet cex2 "a" evenType).2 = none ∧
    lookup (modelSet cex2 "a" evenType).1.population "x" = some [("a", 4)] ∧
    lookup (modelSet cex2 "a" evenType).1.population "y" = some [("a", 0)] :=
  ⟨(claim_C3 cex2 "a" natType evenType rfl (by decide) evenType_WF (by decide)).1,
    by decide, by decide⟩

/-- C7 (`Individual.setValue` semantics, `MemoryIndividual.__setitem__`):
an unknown attribute name fails with `KeyError`; a value already of the
attribute's type is stored as is; otherwise the value is coerced through
the type's one-argument constructor, a conversion failure propagating;
and any successfully stored value satisfies invariant I2 (it is an
instance of the attribute's current type). -/
theorem claim_C7 {V : Type} (model : List (String × VType V)) (vals : List (String × V))
    (name : String) (v : V) :
    (lookup model name = none → setValue model vals name v = .error .keyError) ∧
    (∀ attr, lookup model name = some attr →
      (attr.isInst v = true → setValue model vals name v = .ok (setKey vals name v)) ∧
      (attr.isInst v = false → ∀ w, attr.conv v = some w →
        setValue model vals name v = .ok (setKey vals name w)) ∧
      (attr.isInst v = false → attr.conv v = none →
        setValue model vals name v = .error .valueError) ∧
      (attr.WF → ∀ vals', setValue model vals name v = .ok vals' →
        ∃ u, vals' = setKey vals name u ∧ attr.isInst u = true ∧
          lookup vals' name = some u)) := by
  refine ⟨fun h0 => by simp [setValue, h0], fun attr hattr => ⟨?_, ?_, ?_, ?_⟩⟩
  · intro hi
    simp [setValue, hattr, hi]
  · intro hi w hw
    simp [setValue, hattr, hi, hw]
  · intro hi hw
    simp [setValue, hattr, hi, hw]
  · intro hwf vals' hok
    by_cases hi : attr.isInst v = true
    · simp only [setValue, hattr, hi, if_true] at hok
      exact ⟨v, (Except.ok.inj hok).symm, hi, by
        rw [← Except.ok.inj hok]; exact lookup_setKey_self vals name v⟩
    · cases hw : attr.conv v with
      | none => simp [setValue, hattr, hi, hw] at hok
      | some w =>
        simp only [setValue, hattr, hi, if_false, hw] at hok
        exact ⟨w, (Except.ok.inj hok).symm, hwf.2 v w hw, by
          rw [← Except.ok.inj hok]; exact lookup_setKey_self vals name w⟩

/-- C7, witness: on `cex1`'s model, setting the unknown name `b` raises
`KeyError`; setting `a` to `5` (already an instance for `natType`) stores
it and the stored value satisfies I2. -/
theorem claim_C7_witness :
    setValue cex1.model [] "b" (7 : Nat) = .error .keyError ∧
    setValue cex1.model [] "a" (5 : Nat) = .ok [("a", 5)] ∧
    ∃ u, ([(("a" : String), (5 : Nat))] : List (String × Nat)) = setKey [] "a" u ∧
      natType.isInst u = true ∧ lookup [("a", 5)] "a" = some u :=
  ⟨(claim_C7 cex1.model [] "b" 7).1 rfl,
    (claim_C7 cex1.model [] "a" 5).2 natType rfl |>.1 rfl,
    (claim_C7 cex1.model [] "a" 5).2 natType rfl |>.2.2.2 natType_WF [("a", 5)]
      ((claim_C7 cex1.model [] "a" 5).2 natType rfl |>.1 rfl)⟩

/-- C8 (same-type no-op): when the name is already mapped to an attribute
whose type is the same class, `MemoryModel.__setitem__` changes nothing at
all — the returned context is the very same state and nothing is raised. -/
theorem claim_C8 {V : Type} (c : Ctx V) (name : String) (cls tOld : VType V)
    (hm : lookup c.model name = some tOld) (heq : tOld.id = cls.id) :
    modelSet c name cls = (c, none) := by
  simp [modelSet, hm, heq]

/-- C8, witness: re-adding attribute `a` with the same type on `cex1` is
the identity. -/
theorem claim_C8_witness : modelSet cex1 "a" natType = (cex1, none) :=
  claim_C8 cex1 "a" natType natType rfl rfl

/-! ### Category algebra (`galactic/type/category.py`, `ImpreciseCategory`)

A derived category type has a fixed, ordered, deduplicated universe
`_items`; a value is a bit vector with one bit per universe item, here a
`List Bool` in universe order.  `ImpreciseCategory.__new__(items)` builds
`Bits([item in items for item in cls._items])`; `bool(bits)` is true when
some bit is set, which the comparison operators negate. -/

/-- One-argument construction from an iterable: the bit of universe item
`i` is set exactly when that item occurs in the iterable. -/
def ofIterable {α : Type} [DecidableEq α] (univ : List α) (xs : List α) : List Bool :=
  univ.map (fun item => decide (item ∈ xs))

/-- The index a universe item is mapped to by `cls._items` (insertion
position), `none` when the item is not in the universe. -/
def idxOf {α : Type} [DecidableEq α] : List α → α → Option Nat
  | [], _ => none
  | x :: rest, a => if x = a then some 0 else (idxOf rest a).map (fun i => i + 1)

/-- `ImpreciseCategory.__contains__`: return the item's bit, raising
`ValueError` for an item outside the universe. -/
def containsItem {α : Type} [DecidableEq α] (univ : List α) (bits : List Bool)
    (item : α) : Except Err Bool :=
  match idxOf univ item with
  | none => .error .valueError
  | some i => .ok (bits.getD i false)

/-- Bitwise complement (`~bits`). -/
def bNot (a : List Bool) : List Bool := a.map (fun x => !x)

/-- Bitwise intersection (`&`). -/
def bAnd (a b : List Bool) : List Bool := List.zipWith (fun x y => x && y) a b

/-- Bitwise union (`|`). -/
def bOr (a b : List Bool) : List Bool := List.zipWith (fun x y => x || y) a b

/-- `bool(bits)`: true when at least one bit is set. -/
def anySet (l : List Bool) : Bool := l.any (fun x => x)

/-- `ImpreciseCategory.__le__`: `not bool(self.bits & ~other.bits)`. -/
def catLe (a b : List Bool) : Bool := !(anySet (bAnd a (bNot b)))

/-- `ImpreciseCategory.isdisjoint` on a same-type operand:
`not bool(self.bits & other.bits)`. -/
def catDisjoint (a b : List Bool) : Bool := !(anySet (bAnd a b))

/-- `ImpreciseCategory.__len__`: popcount. -/
def catLen (l : List Bool) : Nat := l.count true

/-- The right-hand operand of a comparison: either a value of the same
derived category type, or any other object (plain iterable, value of a
sibling category type, arbitrary object), on which `isinstance` fails. -/
inductive COperand (γ : Type) where
  | same (bits : List Bool) : COperand γ
  | foreign (x : γ) : COperand γ

/-- `ImpreciseCategory.__ne__`: bit inequality on a same-type operand,
`TypeError` otherwise. -/
def catNeTest {γ : Type} (a : List Bool) : COperand γ → Except Err Bool
  | .same b => .ok (decide (¬ a = b))
  | .foreign _ => .error .typeError

/-- `ImpreciseCategory.__eq__`: `not self != other`, so it routes through
`__ne__` and inherits its `TypeError`. -/
def catEqTest {γ : Type} (a : List Bool) (o : COperand γ) : Except Err Bool :=
  match catNeTest a o with
  | .ok r => .ok (!r)
  | .error e => .error e

theorem catLe_cons (x y : Bool) (a b : List Bool) :
    catLe (x :: a) (y :: b) = ((!(x && !y)) && catLe a b) := by
  simp [catLe, bAnd, bNot, anySet]

theorem catLe_refl (a : List Bool) : catLe a a = true := by
  induction a with
  | nil => simp [catLe, bAnd, bNot, anySet]
  | cons x rest ih =>
    rw [catLe_cons, ih]
    cases x <;> simp

theorem catLe_antisymm_iff :
    ∀ a b : List Bool, a.length = b.length →
      ((catLe a b = true ∧ catLe b a = true) ↔ a = b) := by
  intro a
  induction a with
  | nil =>
    intro b hb
    cases b with
    | nil => simp [catLe, bAnd, bNot, anySet]
    | cons y rest => simp at hb
  | cons x a ih =>
    intro b hb
    cases b with
    | nil => simp at hb
    | cons y b =>
      simp only [List.length_cons, Nat.succ.injEq] at hb
      rw [catLe_cons, catLe_cons]
      constructor
      · rintro ⟨h1, h2⟩
        simp only [Bool.and_eq_true] at h1 h2
        have hxy : x = y := by
          revert h1 h2
          cases x <;> cases y <;> simp
        have hab : a = b := (ih b hb).1 ⟨h1.2, h2.2⟩
        rw [hxy, hab]
      · intro h
        injection h with h1 h2
        subst h1
        subst h2
        constructor <;> rw [catLe_refl] <;> cases x <;> simp

theorem anySet_false_iff_count (l : List Bool) :
    anySet l = false ↔ l.count true = 0 := by
  induction l with
  | nil => simp [anySet]
  | cons x rest ih =>
    cases x with
    | false => simpa [anySet, List.count_cons] using ih
    | true => simp [anySet, List.count_cons]

theorem not_anySet_eq_all (l : List Bool) :
    (!(anySet l)) = l.all (fun x => !x) := by
  induction l with
  | nil => simp [anySet]
  | cons x rest ih =>
    cases x with
    | false => simpa [anySet] using ih
    | true => simp [anySet]

theorem bAnd_bOr_distrib :
    ∀ a b c : List Bool, bAnd a (bOr b c) = bOr (bAnd a b) (bAnd a c) := by
  intro a
  induction a with
  | nil => intro b c; simp [bAnd, bOr]
  | cons x a ih =>
    intro b c
    cases b with
    | nil => simp [bAnd, bOr]
    | cons y b =>
      cases c with
      | nil => simp [bAnd, bOr]
      | cons z c =>
        simp only [bAnd, bOr, List.zipWith_cons_cons] at ih ⊢
        rw [ih b c, Bool.and_or_distrib_left]

/-- C4 (category algebra laws): over one derived category type (bit
vectors of one length), mutual inclusion is equality, intersection
distributes over union, disjointness is an empty intersection, and the
inclusion test is the all-zero test on `A AND NOT B`. -/
theorem claim_C4 (a b c : List Bool) (hab : a.length = b.length)
    (_hac : a.length = c.length) :
    ((catLe a b = true ∧ catLe b a = true) ↔ a = b) ∧
    bAnd a (bOr b c) = bOr (bAnd a b) (bAnd a c) ∧
    (catDisjoint a b = true ↔ catLen (bAnd a b) = 0) ∧
    (catLe a b = true ↔ (bAnd a (bNot b)).all (fun x => !x) = true) := by
  refine ⟨catLe_antisymm_iff a b hab, bAnd_bOr_distrib a b c, ?_, ?_⟩
  · rw [catDisjoint, catLen, Bool.not_eq_true']
    exact anySet_false_iff_count (bAnd a b)
  · rw [catLe, not_anySet_eq_all]

/-- C4, witness at a concrete universe of three items. -/
theorem claim_C4_witness :
    ((catLe [true, false, true] [true, true, true] = true ∧
      catLe [true, true, true] [true, false, true] = true) ↔
      [true, false, true] = [true, true, true]) ∧
    bAnd [true, false, true] (bOr [true, true, true] [false, false, true]) =
      bOr (bAnd [true, false, true] [true, true, true])
        (bAnd [true, false, true] [false, false, true]) ∧
    (catDisjoint [true, false, true] [true, true, true] = true ↔
      catLen (bAnd [true, false, true] [true, true, true]) = 0) ∧
    (catLe [true, false, true] [true, true, true] = true ↔
      (bAnd [true, false, true] (bNot [true, true, true])).all (fun x => !x) = true) :=
  claim_C4 [true, false, true] [true, true, true] [false, false, true] rfl rfl

theorem getD_map_lt {α β : Type} (f : α → β) :
    ∀ (l : List α) (i : Nat), i < l.length → ∀ (h : i < l.length) (d : β),
      (l.map f).getD i d = f (l.get ⟨i, h⟩) := by
  intro l
  induction l with
  | nil => intro i hi; simp at hi
  | cons x rest ih =>
    intro i hi h d
    cases i with
    | zero => simp [List.getD]
    | succ j =>
      have hj : j < rest.length := Nat.lt_of_succ_lt_succ hi
      simpa [List.getD] using ih j hj hj d

theorem idxOf_eq_none {α : Type} [DecidableEq α] :
    ∀ (univ : List α) (item : α), item ∉ univ → idxOf univ item = none := by
  intro univ
  induction univ with
  | nil => intro item _; simp [idxOf]
  | cons x rest ih =>
    intro item h
    simp only [List.mem_cons, not_or] at h
    have hx : ¬ x = item := fun hh => h.1 hh.symm
    simp [idxOf, hx, ih item h.2]

/-- C9 (construction versus membership outside the universe): one-argument
construction sets exactly the bits of universe items present in the
iterable and silently ignores items outside the universe (filtering them
away changes nothing), while the membership test on an item outside the
universe raises `ValueError` instead of answering false. -/
theorem claim_C9 {α : Type} [DecidableEq α] (univ xs : List α) (item : α) :
    ofIterable univ xs = ofIterable univ (xs.filter (fun x => decide (x ∈ univ))) ∧
    (∀ i : Fin univ.length,
      (ofIterable univ xs).getD i.1 false = decide (univ.get i ∈ xs)) ∧
    (item ∉ univ → containsItem univ (ofIterable univ xs) item = .error .valueError) := by
  refine ⟨?_, ?_, ?_⟩
  · unfold ofIterable
    refine List.map_congr_left ?_
    intro u hu
    simp [List.mem_filter, hu]
  · intro i
    exact getD_map_lt _ univ i.1 i.2 i.2 false
  · intro h
    simp [containsItem, idxOf_eq_none univ item h]

/-- C9, witness: with universe `[0, 1]`, the out-of-universe item `5` in
the iterable is ignored by construction, and testing membership of `5`
raises `ValueError`. -/
theorem claim_C9_witness :
    ofIterable [0, 1] [0, 5] =
      ofIterable [0, 1] (List.filter (fun x => decide (x ∈ [0, 1])) [0, 5]) ∧
    containsItem [0, 1] (ofIterable [0, 1] [0, 5]) 5 = .error .valueError :=
  ⟨(claim_C9 [0, 1] [0, 5] 5).1, (claim_C9 [0, 1] [0, 5] 5).2.2 (by decide)⟩

/-- C10 (implicit, foreign operands of equality): comparing a category
value with any operand that is not of its own derived type raises
`TypeError` from both `==` and `!=`; equality with a foreign operand never
answers false. -/
theorem claim_C10 {γ : Type} (a : List Bool) (x : γ) :
    catEqTest a (COperand.foreign x) = .error .typeError ∧
    catNeTest a (COperand.foreign x) = .error .typeError :=
  ⟨rfl, rfl⟩

/-! ### Interval algebra (`galactic/type/number.py`, `ImpreciseNumber`)

An interval type is parameterized by an ordered numeric domain with
`default_lower` and `default_upper` class constants; a value holds a
`lower` and an `upper` bound.  The bound arguments below stand for the
already-converted values (the class `convert` is the identity on values
of the domain, as it is for `ImpreciseFloat` and `ImpreciseInteger`). -/

/-- An `ImpreciseNumber` value: the stored pair of bounds. -/
structure Intv (N : Type) where
  lower : N
  upper : N
deriving DecidableEq

/-- `ImpreciseNumber.__init__` after conversion: if `lower > upper`, the
bounds are replaced by `(default_upper, default_lower)`. -/
def mkIntv {N : Type} [LinearOrder N] (dLower dUpper lo up : N) : Intv N :=
  if lo > up then ⟨dUpper, dLower⟩ else ⟨lo, up⟩

/-- `ImpreciseNumber.__le__`:
`self._lower >= other.lower and self._upper <= other.upper`. -/
def intvLe {N : Type} [LinearOrder N] (a b : Intv N) : Bool :=
  decide (b.lower ≤ a.lower) && decide (a.upper ≤ b.upper)

/-- `ImpreciseNumber.__eq__`: pairwise bound equality. -/
def intvEqTest {N : Type} [DecidableEq N] (a b : Intv N) : Bool :=
  decide (a.lower = b.lower) && decide (a.upper = b.upper)

/-- `ImpreciseNumber.__and__`: rebuild through the constructor from
`(max of the lowers, min of the uppers)`. -/
def intvAnd {N : Type} [LinearOrder N] (dLower dUpper : N) (a b : Intv N) : Intv N :=
  mkIntv dLower dUpper (max a.lower b.lower) (min a.upper b.upper)

/-- `ImpreciseNumber.isdisjoint`:
`self._upper < other.lower or self._lower > other.upper`. -/
def intvDisjoint {N : Type} [LinearOrder N] (a b : Intv N) : Bool :=
  decide (a.upper < b.lower) || decide (b.upper < a.lower)

/-- The values the constructor can actually produce: ordinary intervals
with `lower ≤ upper`, or the canonical inverted pair
`(default_upper, default_lower)`. -/
def IntvCanonical {N : Type} [LinearOrder N] (dLower dUpper : N) (a : Intv N) : Prop :=
  a.lower ≤ a.upper ∨ (a.lower = dUpper ∧ a.upper = dLower)

theorem mkIntv_canonical {N : Type} [LinearOrder N] (dLower dUpper lo up : N) :
    IntvCanonical dLower dUpper (mkIntv dLower dUpper lo up) := by
  unfold mkIntv IntvCanonical
  split
  · exact Or.inr ⟨rfl, rfl⟩
  · rename_i h
    exact Or.inl (le_of_not_lt h)

/-- C5 (canonicalization of inverted input): whenever the converted
bounds satisfy `lower > upper`, the constructed interval is exactly
`(default_upper, default_lower)`. -/
theorem claim_C5 {N : Type} [LinearOrder N] (dLower dUpper lo up : N)
    (h : up < lo) : mkIntv dLower dUpper lo up = ⟨dUpper, dLower⟩ := by
  simp [mkIntv, h]

/-- C5, witness: Scenario E4 over the integers with domain defaults
`(-100, 100)` — `lower=5, upper=0` yields `(100, -100)`. -/
theorem claim_C5_witness :
    mkIntv (-100 : Int) 100 5 0 = ⟨100, -100⟩ :=
  claim_C5 (-100) 100 5 0 (by decide)

/-- C6 (interval order and intersection): inclusion is the reversed
comparison of lower bounds with the direct comparison of upper bounds;
equality is pairwise bound equality; for constructor-produced operands
the intersection has bounds `(max of the lowers, min of the uppers)` when
the operands are not disjoint, and is the canonical empty representation
`(default_upper, default_lower)` when they are disjoint. -/
theorem claim_C6 {N : Type} [LinearOrder N] (dLower dUpper : N) (hd : dLower ≤ dUpper)
    (a b : Intv N) (hca : IntvCanonical dLower dUpper a)
    (hcb : IntvCanonical dLower dUpper b) :
    (intvLe a b = true ↔ (b.lower ≤ a.lower ∧ a.upper ≤ b.upper)) ∧
    (intvEqTest a b = true ↔ (a.lower = b.lower ∧ a.upper = b.upper)) ∧
    (intvDisjoint a b = false →
      intvAnd dLower dUpper a b = ⟨max a.lower b.lower, min a.upper b.upper⟩) ∧
    (intvDisjoint a b = true → intvAnd dLower dUpper a b = ⟨dUpper, dLower⟩) := by
  refine ⟨by simp [intvLe], by simp [intvEqTest], ?_, ?_⟩
  · intro h
    have hnd : b.lower ≤ a.upper ∧ a.lower ≤ b.upper := by
      simp only [intvDisjoint, Bool.or_eq_false_iff, decide_eq_false_iff_not,
        not_lt] at h
      exact h
    rcases hca with hva | ⟨hla, hua⟩
    · rcases hcb with hvb | ⟨hlb, hub⟩
      · have hmm : max a.lower b.lower ≤ min a.upper b.upper :=
          max_le (le_min hva hnd.2) (le_min hnd.1 hvb)
        simp [intvAnd, mkIntv, not_lt.2 hmm]
      · have h1 : a.lower ≤ dLower := hub ▸ hnd.2
        have h2 : dUpper ≤ a.upper := hlb ▸ hnd.1
        have hmax : max a.lower b.lower = dUpper := by
          rw [hlb]
          exact max_eq_right (le_trans h1 hd)
        have hmin : min a.upper b.upper = dLower := by
          rw [hub]
          exact min_eq_right (le_trans hd h2)
        unfold intvAnd mkIntv
        rw [hmax, hmin]
        split
        · rfl
        · rfl
    · have h1 : b.lower ≤ dLower := hua ▸ hnd.1
      have h2 : dUpper ≤ b.upper := hla ▸ hnd.2
      have hmax : max a.lower b.lower = dUpper := by
        rw [hla]
        exact max_eq_left (le_trans h1 hd)
      have hmin : min a.upper b.upper = dLower := by
        rw [hua]
        exact min_eq_left (le_trans hd h2)
      unfold intvAnd mkIntv
      rw [hmax, hmin]
      split
      · rfl
      · rfl
  · intro h
    simp only [intvDisjoint, Bool.or_eq_true, decide_eq_true_iff] at h
    have hlt : min a.upper b.upper < max a.lower b.lower := by
      rcases h with h | h
      · exact lt_of_le_of_lt (min_le_left _ _) (lt_of_lt_of_le h (le_max_right _ _))
      · exact lt_of_le_of_lt (min_le_right _ _) (lt_of_lt_of_le h (le_max_left _ _))
    simp [intvAnd, mkIntv, hlt]

/-- C6, witness over the integers with domain defaults `(-100, 100)`:
overlapping intervals `[0, 10]` and `[5, 20]`, whose intersection is
`[5, 10]`. -/
theorem claim_C6_witness :
    (intvLe (⟨0, 10⟩ : Intv Int) ⟨5, 20⟩ = true ↔ ((5 : Int) ≤ 0 ∧ (10 : Int) ≤ 20)) ∧
    (intvEqTest (⟨0, 10⟩ : Intv Int) ⟨5, 20⟩ = true ↔ ((0 : Int) = 5 ∧ (10 : Int) = 20)) ∧
    (intvDisjoint (⟨0, 10⟩ : Intv Int) ⟨5, 20⟩ = false →
      intvAnd (-100) 100 (⟨0, 10⟩ : Intv Int) ⟨5, 20⟩ = ⟨max 0 5, min 10 20⟩) ∧
    (intvDisjoint (⟨0, 10⟩ : Intv Int) ⟨5, 20⟩ = true →
      intvAnd (-100) 100 (⟨0, 10⟩ : Intv Int) ⟨5, 20⟩ = ⟨100, -100⟩) :=
  claim_C6 (-100) 100 (by decide) ⟨0, 10⟩ ⟨5, 20⟩ (by left; decide) (by left; decide)

end Galactic

